import Mathlib

/-!
# Verification of the Timer library (Timer.cpp / Timer.h / List.cpp / List.h)

A shallow embedding of the interrupt-driven timer scheduler.  The C++ data
is modelled as follows:

* `timeElement` (Timer.h) becomes a structure of `Nat` fields; the two
  opaque pointers `_callBack` and `_arg` become opaque `Nat` identities.
* `List` (List.cpp) stores `pObject` pointers; pointers become `Nat`
  identifiers, the registry becomes a Lean `List Nat` (the first element is
  index 0, `m_Counter` is the length) and the capacity checks of
  `Add`/`InsertAt` are kept.
* `Timer` becomes `TimerState`: the clock `_presentTime`, the registry
  `_timeOutList`, and a `store : Nat → timeElement` mapping each pointer to
  the record it points at (pointer dereference/mutation become lookup and
  update of `store`).
* Machine integers are `Nat` with the masks of the source (`&&& 0x7FFF`)
  kept where the source has them.  All quantities the code keeps in
  `[0, 0x7FFF]` stay there because every write masks with `&&& 0x7FFF`.
* Callback invocation (`callFunction`, Timer.h line 188) is modelled as the
  emission of a `FireEvent` recording the callback, its argument, and the
  record's `_timeOut` at the moment of the call; `NextTick` returns the list
  of events it emitted, in order.
* The `while` loop of `Timer::NextTick` (Timer.cpp lines 204-218) is
  modelled with explicit fuel `NextTickLoop`; `NextTick` runs it with fuel
  `GetCount ()`, which is proved sufficient for every state satisfying the
  scheduler invariant (each iteration strictly decreases the number of due
  records).  For states where the C++ loop diverges (a due record whose
  period is 0 mod 0x8000) the fuel just truncates the infinite loop.
-/

namespace TimerSpec

/-- `MAX_LIST_PTRS` from List.h (default value 5). -/
def MAX_LIST_PTRS : Nat := 5

/-- `timeElement` from Timer.h.  `callBack`/`arg` are the opaque identities
of the function pointer and user argument. -/
structure timeElement where
  timeOut : Nat
  timePeriod : Nat
  repeats : Nat
  callBack : Nat
  arg : Nat
deriving DecidableEq, Repr

/-- The observable effect of one callback invocation: which function was
called and with which argument. -/
structure CallEvent where
  callBack : Nat
  arg : Nat
deriving DecidableEq, Repr

/-- `timeElement::callFunction` (Timer.h line 188): `(*_callBack) (_arg)`,
modelled as the emission of the corresponding `CallEvent`. -/
def callFunction (e : timeElement) : CallEvent :=
  ⟨e.callBack, e.arg⟩

/-- `timeElement::clockAlarm` (Timer.cpp lines 59-66): call the callback,
then if `_repeats != 0` decrement it and return `false` exactly when the
decrement reached 0; return `true` otherwise.  Result: (emitted event,
updated record, returned bool). -/
def clockAlarm (e : timeElement) : CallEvent × timeElement × Bool :=
  let ev := callFunction e
  if e.repeats ≠ 0 then
    let e' : timeElement := { e with repeats := e.repeats - 1 }
    (ev, e', if e'.repeats = 0 then false else true)
  else
    (ev, e, true)

/-- `timeElement::updateTimeOut` (Timer.cpp lines 74-77):
`_timeOut = (_timePeriod + _timeOut) & 0x7fff`. -/
def updateTimeOut (e : timeElement) : timeElement :=
  { e with timeOut := (e.timePeriod + e.timeOut) &&& 0x7FFF }

/-- `timeElement::setTimeOut` (Timer.h line 101): `_timeOut = to & 0x7FFF`. -/
def setTimeOut (e : timeElement) (v : Nat) : timeElement :=
  { e with timeOut := v &&& 0x7FFF }

/-- Pointer-store update: mutation of the record a pointer refers to. -/
def updStore (store : Nat → timeElement) (p : Nat) (e : timeElement) :
    Nat → timeElement :=
  fun x => if x = p then e else store x

/-- `List::Add` (List.cpp lines 48-54): append at the end if
`m_Counter < MAX_LIST_PTRS`, otherwise no-op. -/
def ListAdd (l : List Nat) (pData : Nat) : List Nat :=
  if l.length < MAX_LIST_PTRS then l ++ [pData] else l

/-- `List::InsertAt` (List.cpp lines 61-71): if there is capacity, shift the
entries at or after `index` one slot toward the end and write `pData` at
`index`; otherwise no-op. -/
def ListInsertAt (l : List Nat) (index : Nat) (pData : Nat) : List Nat :=
  if l.length < MAX_LIST_PTRS then l.insertIdx index pData else l

/-- `List::Remove` (List.cpp lines 89-96): shift the entries after `index`
one slot toward the front and decrement the count; for `index ≥ m_Counter`
both the shift and the decrement are skipped (no-op).  This is exactly
`List.eraseIdx`. -/
def ListRemove (l : List Nat) (index : Nat) : List Nat :=
  l.eraseIdx index

/-- The `Timer` object (Timer.h lines 217-279) together with the records its
registry points at. -/
structure TimerState where
  presentTime : Nat
  timeOutList : List Nat
  store : Nat → timeElement

/-- `Timer::normalizeTimeOut` (Timer.cpp lines 174-186):
`if (_presentTime > time) t = time | 0x8000; else t = time;`. -/
def normalizeTimeOut (presentTime time : Nat) : Nat :=
  if presentTime > time then time ||| 0x8000 else time

/-- The loop of `Timer::Search` (Timer.cpp lines 255-257): return the first
index `i` with `normalizeTimeOut (pArg->getTimeOut ()) <
normalizeTimeOut (GET_TIMEOUT (i))`, or the length when there is none. -/
def SearchFrom (presentTime : Nat) (store : Nat → timeElement) (pArg : Nat) :
    List Nat → Nat
  | [] => 0
  | h :: t =>
    if normalizeTimeOut presentTime (store pArg).timeOut <
        normalizeTimeOut presentTime (store h).timeOut then 0
    else SearchFrom presentTime store pArg t + 1

/-- `Timer::Search` (Timer.cpp lines 247-263): `0` for the empty list,
otherwise the scan `SearchFrom`. -/
def Search (presentTime : Nat) (store : Nat → timeElement) (pArg : Nat)
    (l : List Nat) : Nat :=
  if l.length = 0 then 0 else SearchFrom presentTime store pArg l

/-- `Timer::InsertTimer` (Timer.cpp lines 226-238): `InsertAt (Search pArg)`
when the list is non-empty, `Add` otherwise. -/
def InsertTimer (s : TimerState) (pArg : Nat) : List Nat :=
  if s.timeOutList.length > 0 then
    ListInsertAt s.timeOutList (Search s.presentTime s.store pArg s.timeOutList) pArg
  else
    ListAdd s.timeOutList pArg

/-- `Timer::startTimer` (Timer.cpp lines 120-130):
`pArg->setTimeOut (_presentTime + pArg->getTimePeriod ())`, then
`InsertTimer (pArg)`. -/
def startTimer (s : TimerState) (pArg : Nat) : TimerState :=
  let store' := updStore s.store pArg
    (setTimeOut (s.store pArg) (s.presentTime + (s.store pArg).timePeriod))
  let s1 : TimerState := { s with store := store' }
  { s1 with timeOutList := InsertTimer s1 pArg }

/-- `Timer::cancelTimer` (Timer.cpp lines 137-147): scan for the pointer
(`findIdx` is the C++ loop, returning the count when not found), then
`Remove` at the resulting index. -/
def cancelTimer (s : TimerState) (pTE : Nat) : TimerState :=
  { s with timeOutList :=
      ListRemove s.timeOutList (s.timeOutList.findIdx (fun x => x = pTE)) }

/-- One record's firing as observed at the scheduler level: the pointer that
fired, the invoked callback and argument, and the record's `_timeOut` at the
moment `clockAlarm` ran (i.e. after `updateTimeOut`, Timer.cpp line 207). -/
structure FireEvent where
  id : Nat
  callBack : Nat
  arg : Nat
  timeOutAtCall : Nat
deriving DecidableEq, Repr

/-- The body of the re-sort pass of `Timer::NextTick` (Timer.cpp lines
213-217) with the walking element `a` held separately: while
`normalizeTimeOut (GET_TIMEOUT (i-1)) > normalizeTimeOut (GET_TIMEOUT (i))`
swap `a` one slot backwards, stopping at the first pair already in order. -/
def sortPassGo (presentTime : Nat) (store : Nat → timeElement) (a : Nat) :
    List Nat → List Nat
  | [] => [a]
  | b :: rest =>
    if normalizeTimeOut presentTime (store a).timeOut >
        normalizeTimeOut presentTime (store b).timeOut then
      b :: sortPassGo presentTime store a rest
    else
      a :: b :: rest

/-- The re-sort pass of `Timer::NextTick` (Timer.cpp lines 213-217): the
loop starts at `i = 1`, repeatedly swapping the just-fired head backwards
until a pair in order is found or the list ends. -/
def sortPass (presentTime : Nat) (store : Nat → timeElement) :
    List Nat → List Nat
  | [] => []
  | a :: t => sortPassGo presentTime store a t

/-- The `while` loop of `Timer::NextTick` (Timer.cpp lines 204-218), with
explicit fuel.  Each iteration with a due head: `updateTimeOut` on the head
(line 207), `clockAlarm` on the head (line 210, its boolean result is
discarded by the source), then the re-sort pass.  Returns the final store,
final list, and the events emitted so far. -/
def NextTickLoop (now : Nat) :
    Nat → (Nat → timeElement) → List Nat → List FireEvent →
    (Nat → timeElement) × List Nat × List FireEvent
  | 0, store, l, evs => (store, l, evs)
  | fuel + 1, store, l, evs =>
    match l with
    | [] => (store, l, evs)
    | h :: t =>
      if (store h).timeOut = now then
        let store1 := updStore store h (updateTimeOut (store h))
        let fired := clockAlarm (store1 h)
        let store2 := updStore store1 h fired.2.1
        let fe : FireEvent := ⟨h, fired.1.callBack, fired.1.arg, (store1 h).timeOut⟩
        NextTickLoop now fuel store2 (sortPass now store2 (h :: t)) (evs ++ [fe])
      else
        (store, h :: t, evs)

/-- `Timer::NextTick` (Timer.cpp lines 197-219): advance the clock by one
tick (`(_presentTime + 1) & 0x7fff`), return if there are no timers,
otherwise run the firing loop.  The loop gets fuel `GetCount ()`, proved
sufficient whenever the scheduler invariant holds (see
`NextTickLoop_spec`). -/
def NextTick (s : TimerState) : TimerState × List FireEvent :=
  let now := (s.presentTime + 1) &&& 0x7FFF
  if s.timeOutList.length = 0 then
    ({ s with presentTime := now }, [])
  else
    let r := NextTickLoop now s.timeOutList.length s.store s.timeOutList []
    (⟨now, r.2.1, r.1⟩, r.2.2)

/-- One caller-visible scheduler operation. -/
inductive Op where
  | register (pArg : Nat)
  | cancel (pTE : Nat)
  | tick
deriving DecidableEq, Repr

/-- Apply one operation (the events of a tick are not part of the state). -/
def applyOp (s : TimerState) : Op → TimerState
  | Op.register pArg => startTimer s pArg
  | Op.cancel pTE => cancelTimer s pTE
  | Op.tick => (NextTick s).1

/-- Apply a sequence of operations in order. -/
def applyOps (s : TimerState) : List Op → TimerState
  | [] => s
  | o :: rest => applyOps (applyOp s o) rest

/-- The wrap-safe sort invariant exactly as the spec states it: for every
adjacent pair of the pending list, the comparison of Timer.cpp line 214
never reports the earlier slot as strictly greater than the later one. -/
def SortInvariant (s : TimerState) : Prop :=
  List.Chain'
    (fun a b =>
      ¬ (normalizeTimeOut s.presentTime ((s.store a).timeOut) >
          normalizeTimeOut s.presentTime ((s.store b).timeOut)))
    s.timeOutList

/-- Executable adjacent-pair check behind the `SortInvariant` decision
procedure. -/
def chainNotGtGo (s : TimerState) (a : Nat) : List Nat → Bool
  | [] => true
  | b :: t =>
    decide (¬ (normalizeTimeOut s.presentTime ((s.store a).timeOut) >
      normalizeTimeOut s.presentTime ((s.store b).timeOut))) &&
    chainNotGtGo s b t

lemma chainNotGtGo_iff (s : TimerState) :
    ∀ (t : List Nat) (a : Nat), chainNotGtGo s a t = true ↔
      List.Chain
        (fun a b =>
          ¬ (normalizeTimeOut s.presentTime ((s.store a).timeOut) >
              normalizeTimeOut s.presentTime ((s.store b).timeOut)))
        a t := by
  intro t
  induction t with
  | nil => intro a; simp [chainNotGtGo]
  | cons b t ih =>
    intro a
    simp [chainNotGtGo, List.chain_cons, ih b]

lemma sortInvariant_iff (s : TimerState) :
    (match s.timeOutList with
      | [] => true
      | a :: t => chainNotGtGo s a t) = true ↔ SortInvariant s := by
  unfold SortInvariant
  cases hl : s.timeOutList with
  | nil => simp [List.Chain']
  | cons a t => exact chainNotGtGo_iff s t a

instance (s : TimerState) : Decidable (SortInvariant s) :=
  decidable_of_decidable_of_iff (sortInvariant_iff s)

/-! ## Arithmetic bridges: the bit masks of the source in `%`/`+` form -/

lemma and_7FFF (x : Nat) : x &&& 0x7FFF = x % 0x8000 := by
  have h := Nat.and_pow_two_sub_one_eq_mod x 15
  norm_num at h
  exact h

lemma and_7FFF_lt (x : Nat) : x &&& 0x7FFF < 0x8000 := by
  rw [and_7FFF]; omega

lemma lor_8000 {t : Nat} (h : t < 0x8000) : t ||| 0x8000 = t + 0x8000 := by
  have h' : t < 2 ^ 15 := by norm_num; omega
  have := Nat.mul_add_lt_is_or h' 1
  rw [Nat.lor_comm]
  norm_num at this ⊢
  omega

lemma normalizeTimeOut_eq {t : Nat} (c : Nat) (h : t < 0x8000) :
    normalizeTimeOut c t = if t < c then t + 0x8000 else t := by
  unfold normalizeTimeOut
  split
  · exact lor_8000 h
  · rfl

lemma normalizeTimeOut_ge {c t : Nat} (hc : c < 0x8000) (ht : t < 0x8000) :
    c ≤ normalizeTimeOut c t := by
  rw [normalizeTimeOut_eq c ht]; split <;> omega

lemma normalizeTimeOut_eq_self_iff {c t : Nat} (hc : c < 0x8000) (ht : t < 0x8000) :
    normalizeTimeOut c t = c ↔ t = c := by
  rw [normalizeTimeOut_eq c ht]; split <;> omega

/-- Advancing the clock by one tick does not change the relative order of
any two wake times that are not equal to the pre-advance clock value. -/
lemma normalizeTimeOut_le_transfer {c t1 t2 : Nat} (hc : c < 0x8000)
    (h1 : t1 < 0x8000) (h2 : t2 < 0x8000) (n1 : t1 ≠ c) (n2 : t2 ≠ c) :
    (normalizeTimeOut ((c + 1) % 0x8000) t1 ≤
      normalizeTimeOut ((c + 1) % 0x8000) t2 ↔
      normalizeTimeOut c t1 ≤ normalizeTimeOut c t2) := by
  rw [normalizeTimeOut_eq c h1, normalizeTimeOut_eq c h2,
    normalizeTimeOut_eq ((c + 1) % 0x8000) h1,
    normalizeTimeOut_eq ((c + 1) % 0x8000) h2]
  split_ifs <;> omega

/-- The wake time and normalized key of a just re-armed record: firing at
clock `now` sets `_timeOut` to `(p + now) & 0x7fff`, whose key relative to
`now` is `now + p % 0x8000`. -/
lemma normalizeTimeOut_fired {now p : Nat} (hc : now < 0x8000) :
    normalizeTimeOut now ((p + now) &&& 0x7FFF) = now + p % 0x8000 := by
  rw [and_7FFF, normalizeTimeOut_eq now (by omega)]
  split_ifs <;> omega

lemma fired_timeOut_ne {now p : Nat} (_hc : now < 0x8000)
    (hp : p % 0x8000 ≠ 0) : (p + now) &&& 0x7FFF ≠ now := by
  rw [and_7FFF]
  omega

/-! ## Keys, sortedness, due records -/

/-- The sort key of the record behind pointer `x`: its wake time normalized
relative to the clock (the comparison operand of Timer.cpp lines 214 and 256). -/
def keyOf (c : Nat) (store : Nat → timeElement) (x : Nat) : Nat :=
  normalizeTimeOut c (store x).timeOut

/-- The pending list is sorted: keys are pairwise non-decreasing. -/
def SortedKeys (c : Nat) (store : Nat → timeElement) (l : List Nat) : Prop :=
  l.Pairwise (fun a b => keyOf c store a ≤ keyOf c store b)

instance (c : Nat) (store : Nat → timeElement) (l : List Nat) :
    Decidable (SortedKeys c store l) :=
  inferInstanceAs (Decidable (List.Pairwise
    (fun a b => keyOf c store a ≤ keyOf c store b) l))

/-- The sub-list of records due at clock value `now`, in list order. -/
def dueList (now : Nat) (store : Nat → timeElement) : List Nat → List Nat
  | [] => []
  | h :: t =>
    if (store h).timeOut = now then h :: dueList now store t
    else dueList now store t

lemma dueList_append (now : Nat) (store : Nat → timeElement) (l1 l2 : List Nat) :
    dueList now store (l1 ++ l2) = dueList now store l1 ++ dueList now store l2 := by
  induction l1 with
  | nil => rfl
  | cons h t ih => simp only [List.cons_append, dueList]; split <;> simp [ih]

lemma dueList_eq_nil (now : Nat) (store : Nat → timeElement) (l : List Nat)
    (h : ∀ x ∈ l, (store x).timeOut ≠ now) : dueList now store l = [] := by
  induction l with
  | nil => rfl
  | cons a t ih =>
    simp only [dueList]
    rw [if_neg (h a (by simp))]
    exact ih fun x hx => h x (by simp [hx])

lemma dueList_congr (now : Nat) {store store' : Nat → timeElement} {l : List Nat}
    (h : ∀ x ∈ l, (store' x).timeOut = (store x).timeOut) :
    dueList now store' l = dueList now store l := by
  induction l with
  | nil => rfl
  | cons a t ih =>
    simp only [dueList, h a (by simp)]
    rw [ih fun x hx => h x (by simp [hx])]

lemma dueList_length_le (now : Nat) (store : Nat → timeElement) (l : List Nat) :
    (dueList now store l).length ≤ l.length := by
  induction l with
  | nil => simp [dueList]
  | cons a t ih => simp only [dueList]; split <;> simp <;> omega

lemma SortedKeys_congr {c : Nat} {store store' : Nat → timeElement} {l : List Nat}
    (h : ∀ x ∈ l, (store' x).timeOut = (store x).timeOut)
    (hs : SortedKeys c store l) : SortedKeys c store' l := by
  refine List.Pairwise.imp_of_mem ?_ hs
  intro a b ha hb hab
  unfold keyOf
  rw [h a ha, h b hb]
  exact hab

/-- In a sorted list whose head is not due, no record is due: every key is
at least the clock and equals it exactly for due records. -/
lemma no_due_of_sorted_head {now : Nat} {store : Nat → timeElement}
    {h : Nat} {t : List Nat} (hnow : now < 0x8000)
    (hb : ∀ x ∈ h :: t, (store x).timeOut < 0x8000)
    (hs : SortedKeys now store (h :: t))
    (hh : (store h).timeOut ≠ now) :
    ∀ x ∈ h :: t, (store x).timeOut ≠ now := by
  intro x hx hdue
  rcases List.mem_cons.mp hx with rfl | hx'
  · exact hh hdue
  · have hkx : keyOf now store x = now := by
      unfold keyOf
      rw [hdue]
      exact (normalizeTimeOut_eq_self_iff hnow (hdue ▸ hb x hx)).mpr rfl
    have hkh : now < keyOf now store h := by
      have hge := normalizeTimeOut_ge hnow (hb h (by simp))
      have hne : keyOf now store h ≠ now :=
        fun he => hh ((normalizeTimeOut_eq_self_iff hnow (hb h (by simp))).mp he)
      unfold keyOf at hne ⊢
      omega
    have := (List.pairwise_cons.mp hs).1 x hx'
    omega

/-! ## The re-sort pass -/

lemma sortPassGo_decomp (c : Nat) (store : Nat → timeElement) (a : Nat) :
    ∀ (t : List Nat), ∃ t1 t2, t = t1 ++ t2 ∧
      sortPassGo c store a t = t1 ++ a :: t2 := by
  intro t
  induction t with
  | nil => exact ⟨[], [], rfl, by simp [sortPassGo]⟩
  | cons b rest ih =>
    by_cases hab : normalizeTimeOut c (store a).timeOut >
        normalizeTimeOut c (store b).timeOut
    · obtain ⟨r1, r2, hr, hs⟩ := ih
      exact ⟨b :: r1, r2, by simp [hr], by simp [sortPassGo, hab, hs]⟩
    · exact ⟨[], b :: rest, rfl, by simp [sortPassGo, hab]⟩

lemma sortPass_decomp (c : Nat) (store : Nat → timeElement) (t : List Nat)
    (a : Nat) : ∃ t1 t2, t = t1 ++ t2 ∧
      sortPass c store (a :: t) = t1 ++ a :: t2 :=
  sortPassGo_decomp c store a t

lemma sortPassGo_perm (c : Nat) (store : Nat → timeElement) (a : Nat)
    (t : List Nat) : (sortPassGo c store a t).Perm (a :: t) := by
  obtain ⟨t1, t2, ht, hs⟩ := sortPassGo_decomp c store a t
  rw [hs, ht]
  exact List.perm_middle

lemma sortPass_perm (c : Nat) (store : Nat → timeElement) (l : List Nat) :
    (sortPass c store l).Perm l := by
  cases l with
  | nil => simp [sortPass]
  | cons a t => exact sortPassGo_perm c store a t

lemma sortPassGo_sorted {c : Nat} {store : Nat → timeElement} :
    ∀ {t : List Nat} {a : Nat}, SortedKeys c store t →
      SortedKeys c store (sortPassGo c store a t) := by
  intro t
  induction t with
  | nil => intro a _; simp [sortPassGo, SortedKeys]
  | cons b rest ih =>
    intro a hs
    have hb := (List.pairwise_cons.mp hs).1
    have hrest := (List.pairwise_cons.mp hs).2
    by_cases hab : normalizeTimeOut c (store a).timeOut >
        normalizeTimeOut c (store b).timeOut
    · have he : sortPassGo c store a (b :: rest) =
          b :: sortPassGo c store a rest := by
        simp only [sortPassGo]
        rw [if_pos hab]
      rw [he]
      refine List.pairwise_cons.mpr ⟨?_, ih hrest⟩
      intro x hx
      rcases List.mem_cons.mp ((sortPassGo_perm c store a rest).mem_iff.mp hx)
        with rfl | hx'
      · exact Nat.le_of_lt hab
      · exact hb x hx'
    · have he : sortPassGo c store a (b :: rest) = a :: b :: rest := by
        simp only [sortPassGo]
        rw [if_neg hab]
      rw [he]
      refine List.pairwise_cons.mpr ⟨?_, hs⟩
      intro x hx
      rcases List.mem_cons.mp hx with rfl | hx'
      · exact Nat.le_of_not_lt hab
      · exact Nat.le_trans (Nat.le_of_not_lt hab) (hb x hx')

lemma sortPass_sorted {c : Nat} {store : Nat → timeElement} {t : List Nat}
    {a : Nat} (hs : SortedKeys c store t) :
    SortedKeys c store (sortPass c store (a :: t)) :=
  sortPassGo_sorted hs

/-! ## The `Search` scan -/

lemma SearchFrom_le_length (c : Nat) (store : Nat → timeElement) (pArg : Nat)
    (l : List Nat) : SearchFrom c store pArg l ≤ l.length := by
  induction l with
  | nil => simp [SearchFrom]
  | cons h t ih =>
    simp only [SearchFrom]
    split
    · simp
    · simpa using ih

lemma Search_eq_SearchFrom (c : Nat) (store : Nat → timeElement) (pArg : Nat)
    (l : List Nat) : Search c store pArg l = SearchFrom c store pArg l := by
  unfold Search
  split
  · cases l with
    | nil => simp [SearchFrom]
    | cons h t => simp_all
  · rfl

/-- Every index before the scan result holds a key less than or equal to the
new record's key (the scan continued past it). -/
lemma SearchFrom_prefix_le {c : Nat} {store : Nat → timeElement} {pArg : Nat} :
    ∀ {l : List Nat} {j : Nat} (hj : j < l.length),
      j < SearchFrom c store pArg l →
      keyOf c store (l.get ⟨j, hj⟩) ≤ keyOf c store pArg := by
  intro l
  induction l with
  | nil => intro j hj; simp at hj
  | cons h t ih =>
    intro j hj hlt
    simp only [SearchFrom] at hlt
    split at hlt
    · omega
    · match j with
      | 0 => simpa [keyOf] using Nat.le_of_not_lt (by assumption)
      | j' + 1 =>
        exact ih (by simpa using hj) (by omega)

/-- If the scan stops inside the list, the key at the returned index is
strictly greater than the new record's key (the scan's break condition). -/
lemma SearchFrom_hit {c : Nat} {store : Nat → timeElement} {pArg : Nat} :
    ∀ {l : List Nat} (h : SearchFrom c store pArg l < l.length),
      keyOf c store pArg <
        keyOf c store (l.get ⟨SearchFrom c store pArg l, h⟩) := by
  intro l
  induction l with
  | nil => intro h; simp [SearchFrom] at h
  | cons a t ih =>
    intro h
    by_cases hc : normalizeTimeOut c (store pArg).timeOut <
        normalizeTimeOut c (store a).timeOut
    · simp [SearchFrom, hc, keyOf]
    · have he : SearchFrom c store pArg (a :: t) =
          SearchFrom c store pArg t + 1 := by simp [SearchFrom, hc]
      have h' : SearchFrom c store pArg t < t.length := by
        rw [he] at h; simpa using h
      have := ih h'
      simp only [he]
      simpa using this

/-- Inserting the new record at the index returned by the scan keeps the
list sorted. -/
lemma insertIdx_SearchFrom_sorted {c : Nat} {store : Nat → timeElement}
    {pArg : Nat} :
    ∀ {l : List Nat}, SortedKeys c store l →
      SortedKeys c store (l.insertIdx (SearchFrom c store pArg l) pArg) := by
  intro l
  induction l with
  | nil => intro _; simp [SearchFrom, SortedKeys]
  | cons h t ih =>
    intro hs
    have hb := (List.pairwise_cons.mp hs).1
    have ht := (List.pairwise_cons.mp hs).2
    by_cases hcond : normalizeTimeOut c (store pArg).timeOut <
        normalizeTimeOut c (store h).timeOut
    · have : SearchFrom c store pArg (h :: t) = 0 := by simp [SearchFrom, hcond]
      rw [this, List.insertIdx_zero]
      refine List.pairwise_cons.mpr ⟨?_, hs⟩
      intro x hx
      rcases List.mem_cons.mp hx with rfl | hx'
      · exact Nat.le_of_lt hcond
      · exact Nat.le_trans (Nat.le_of_lt hcond) (hb x hx')
    · have : SearchFrom c store pArg (h :: t) =
          SearchFrom c store pArg t + 1 := by simp [SearchFrom, hcond]
      rw [this, List.insertIdx_succ_cons]
      refine List.pairwise_cons.mpr ⟨?_, ih ht⟩
      intro x hx
      have hmem := (List.mem_insertIdx (SearchFrom_le_length c store pArg t)).mp hx
      rcases hmem with rfl | hx'
      · exact Nat.le_of_not_lt hcond
      · exact hb x hx'

/-- `insertIdx` within bounds is a permutation of consing. -/
lemma insertIdx_perm {α : Type} (a : α) :
    ∀ (l : List α) (n : Nat), n ≤ l.length → (l.insertIdx n a).Perm (a :: l) := by
  intro l
  induction l with
  | nil =>
    intro n hn
    have : n = 0 := by simpa using hn
    simp [this]
  | cons h t ih =>
    intro n hn
    match n with
    | 0 => simp
    | n' + 1 =>
      rw [List.insertIdx_succ_cons]
      exact ((ih n' (by simpa using hn)).cons h).trans (List.Perm.swap a h t)

/-! ## The firing loop -/

@[simp] lemma updStore_same (store : Nat → timeElement) (p : Nat)
    (e : timeElement) : updStore store p e p = e := by
  simp [updStore]

lemma updStore_other (store : Nat → timeElement) (p : Nat) (e : timeElement)
    {x : Nat} (h : x ≠ p) : updStore store p e x = store x := by
  simp [updStore, h]

lemma clockAlarm_timeOut (e : timeElement) :
    (clockAlarm e).2.1.timeOut = e.timeOut := by
  simp only [clockAlarm]
  split <;> rfl

lemma clockAlarm_timePeriod (e : timeElement) :
    (clockAlarm e).2.1.timePeriod = e.timePeriod := by
  simp only [clockAlarm]
  split <;> rfl

lemma mem_ne_of_dueList_nil {now : Nat} {store : Nat → timeElement} :
    ∀ {l : List Nat}, dueList now store l = [] →
      ∀ x ∈ l, (store x).timeOut ≠ now := by
  intro l
  induction l with
  | nil => intro _ x hx; simp at hx
  | cons h t ih =>
    intro hd x hx
    simp only [dueList] at hd
    split at hd
    · exact absurd hd (by simp)
    · rcases List.mem_cons.mp hx with rfl | hx'
      · assumption
      · exact ih hd x hx'

/-- Whatever the fuel, the firing loop only reorders the pending list. -/
lemma NextTickLoop_perm (now : Nat) :
    ∀ (fuel : Nat) (store : Nat → timeElement) (l : List Nat)
      (evs : List FireEvent),
      ((NextTickLoop now fuel store l evs).2.1).Perm l := by
  intro fuel
  induction fuel with
  | zero => intro store l evs; simp [NextTickLoop]
  | succ f ih =>
    intro store l evs
    match l with
    | [] => simp [NextTickLoop]
    | h :: t =>
      simp only [NextTickLoop]
      split
      · exact (ih _ _ _).trans (sortPass_perm _ _ _)
      · exact List.Perm.refl _

/-- Main loop invariant.  If the pending list is sorted, duplicate-free,
within bounds, and all periods are nonzero mod 0x8000, then running the loop
with at least as much fuel as there are due records yields a state that is
again sorted with no due record left, periods unchanged, and the emitted
events are exactly the due records in list order. -/
lemma NextTickLoop_spec {now : Nat} (hnow : now < 0x8000) :
    ∀ (fuel : Nat) (store : Nat → timeElement) (l : List Nat)
      (evs : List FireEvent),
      (∀ p, (store p).timePeriod % 0x8000 ≠ 0) →
      (∀ x ∈ l, (store x).timeOut < 0x8000) →
      l.Nodup →
      SortedKeys now store l →
      (dueList now store l).length ≤ fuel →
      SortedKeys now (NextTickLoop now fuel store l evs).1
          (NextTickLoop now fuel store l evs).2.1 ∧
      (∀ x ∈ (NextTickLoop now fuel store l evs).2.1,
          ((NextTickLoop now fuel store l evs).1 x).timeOut ≠ now) ∧
      (∀ x ∈ (NextTickLoop now fuel store l evs).2.1,
          ((NextTickLoop now fuel store l evs).1 x).timeOut < 0x8000) ∧
      (∀ p, ((NextTickLoop now fuel store l evs).1 p).timePeriod =
          (store p).timePeriod) ∧
      (NextTickLoop now fuel store l evs).2.2.map FireEvent.id =
          evs.map FireEvent.id ++ dueList now store l := by
  intro fuel
  induction fuel with
  | zero =>
    intro store l evs hper hbound hnd hsort hfuel
    have hnil : dueList now store l = [] :=
      List.length_eq_zero.mp (Nat.le_zero.mp hfuel)
    refine ⟨hsort, mem_ne_of_dueList_nil hnil, hbound, fun p => rfl, ?_⟩
    simp [NextTickLoop, hnil]
  | succ f ih =>
    intro store l evs hper hbound hnd hsort hfuel
    match l with
    | [] =>
      refine ⟨by simpa [NextTickLoop] using hsort, by simp [NextTickLoop],
        by simp [NextTickLoop], fun p => rfl, by simp [NextTickLoop, dueList]⟩
    | h :: t =>
      by_cases hdue : (store h).timeOut = now
      · -- the head fires
        set store1 := updStore store h (updateTimeOut (store h)) with hstore1
        set fired := clockAlarm (store1 h) with hfired
        set store2 := updStore store1 h fired.2.1 with hstore2
        set fe : FireEvent :=
          ⟨h, fired.1.callBack, fired.1.arg, (store1 h).timeOut⟩ with hfe
        have hstep : NextTickLoop now (f + 1) store (h :: t) evs =
            NextTickLoop now f store2 (sortPass now store2 (h :: t))
              (evs ++ [fe]) := by
          simp only [NextTickLoop]
          rw [if_pos hdue]
        have hnotmem : h ∉ t := (List.nodup_cons.mp hnd).1
        have hndt : t.Nodup := (List.nodup_cons.mp hnd).2
        have ht_store2 : ∀ x ∈ t, store2 x = store x := by
          intro x hx
          have hxh : x ≠ h := fun he => hnotmem (he ▸ hx)
          rw [hstore2, updStore_other _ _ _ hxh, hstore1,
            updStore_other _ _ _ hxh]
        have hs2h_timeOut : (store2 h).timeOut =
            ((store h).timePeriod + now) &&& 0x7FFF := by
          rw [hstore2, updStore_same, hfired, clockAlarm_timeOut, hstore1,
            updStore_same, updateTimeOut, hdue]
        have hs2h_period : (store2 h).timePeriod = (store h).timePeriod := by
          rw [hstore2, updStore_same, hfired, clockAlarm_timePeriod, hstore1,
            updStore_same, updateTimeOut]
        have hs2_period : ∀ p, (store2 p).timePeriod = (store p).timePeriod := by
          intro p
          by_cases hp : p = h
          · rw [hp]; exact hs2h_period
          · rw [hstore2, updStore_other _ _ _ hp, hstore1,
              updStore_other _ _ _ hp]
        have hs2h_ne : (store2 h).timeOut ≠ now := by
          rw [hs2h_timeOut]; exact fired_timeOut_ne hnow (hper h)
        have hs2h_lt : (store2 h).timeOut < 0x8000 := by
          rw [hs2h_timeOut]; exact and_7FFF_lt _
        have hsort_t : SortedKeys now store2 t :=
          SortedKeys_congr (fun x hx => by rw [ht_store2 x hx])
            (List.pairwise_cons.mp hsort).2
        have hsort2 : SortedKeys now store2 (sortPass now store2 (h :: t)) :=
          sortPass_sorted hsort_t
        have hbound2 : ∀ x ∈ sortPass now store2 (h :: t),
            (store2 x).timeOut < 0x8000 := by
          intro x hx
          have hx' := (sortPass_perm now store2 (h :: t)).mem_iff.mp hx
          rcases List.mem_cons.mp hx' with rfl | hxt
          · exact hs2h_lt
          · rw [ht_store2 x hxt]; exact hbound x (by simp [hxt])
        have hnd2 : (sortPass now store2 (h :: t)).Nodup :=
          ((sortPass_perm now store2 (h :: t)).nodup_iff).mpr hnd
        have hdue2 : dueList now store2 (sortPass now store2 (h :: t)) =
            dueList now store t := by
          obtain ⟨t1, t2, hts, hsp⟩ := sortPass_decomp now store2 t h
          rw [hsp, dueList_append]
          simp only [dueList]
          rw [if_neg hs2h_ne, ← dueList_append, ← hts]
          exact dueList_congr now fun x hx => by rw [ht_store2 x hx]
        have hper2 : ∀ p, (store2 p).timePeriod % 0x8000 ≠ 0 := by
          intro p; rw [hs2_period p]; exact hper p
        have hfuel2 : (dueList now store2 (sortPass now store2 (h :: t))).length
            ≤ f := by
          rw [hdue2]
          have : dueList now store (h :: t) = h :: dueList now store t := by
            simp [dueList, hdue]
          rw [this] at hfuel
          simpa using hfuel
        obtain ⟨c1, c2, c3, c4, c5⟩ :=
          ih store2 (sortPass now store2 (h :: t)) (evs ++ [fe]) hper2 hbound2
            hnd2 hsort2 hfuel2
        rw [hstep]
        refine ⟨c1, c2, c3, ?_, ?_⟩
        · intro p; rw [c4 p, hs2_period p]
        · rw [c5, hdue2]
          have : dueList now store (h :: t) = h :: dueList now store t := by
            simp [dueList, hdue]
          simp [this, hfe]
      · -- the head is not due: the loop exits
        have hstep : NextTickLoop now (f + 1) store (h :: t) evs =
            (store, h :: t, evs) := by
          simp only [NextTickLoop]
          rw [if_neg hdue]
        rw [hstep]
        have hnodue := no_due_of_sorted_head hnow hbound hsort hdue
        refine ⟨hsort, hnodue, hbound, fun p => rfl, ?_⟩
        simp [dueList_eq_nil now store _ hnodue]

/-! ## The scheduler invariant and its preservation -/

/-- The reachable-state invariant of the scheduler: clock in range, no
duplicate registrations, all wake times in range and not equal to the
current clock (a due record fires on the tick that reaches its wake time
and is immediately re-armed), the pending list sorted by normalized key,
and every record period nonzero mod 0x8000 (the spec's `period > 0`
expectation; a period of 0 or 0x8000 makes the C++ firing loop diverge). -/
def Inv (s : TimerState) : Prop :=
  s.presentTime < 0x8000 ∧
  s.timeOutList.Nodup ∧
  (∀ x ∈ s.timeOutList, (s.store x).timeOut < 0x8000) ∧
  (∀ x ∈ s.timeOutList, (s.store x).timeOut ≠ s.presentTime) ∧
  SortedKeys s.presentTime s.store s.timeOutList ∧
  (∀ p, (s.store p).timePeriod % 0x8000 ≠ 0)

lemma Inv_startTimer {s : TimerState} {pArg : Nat} (hInv : Inv s)
    (hnotmem : pArg ∉ s.timeOutList) : Inv (startTimer s pArg) := by
  obtain ⟨hc, hnd, hbound, hnodue, hsort, hper⟩ := hInv
  set c := s.presentTime with hcdef
  set store' := updStore s.store pArg
    (setTimeOut (s.store pArg) (s.presentTime + (s.store pArg).timePeriod))
    with hstore'
  have hold : ∀ x ∈ s.timeOutList, store' x = s.store x := by
    intro x hx
    exact updStore_other _ _ _ (fun he => hnotmem (he ▸ hx))
  have hnew_timeOut : (store' pArg).timeOut =
      (s.presentTime + (s.store pArg).timePeriod) &&& 0x7FFF := by
    rw [hstore', updStore_same, setTimeOut]
  have hper' : ∀ p, (store' p).timePeriod % 0x8000 ≠ 0 := by
    intro p
    by_cases hp : p = pArg
    · rw [hp, hstore', updStore_same, setTimeOut]; exact hper pArg
    · rw [hstore', updStore_other _ _ _ hp]; exact hper p
  have hnew_ne : (store' pArg).timeOut ≠ c := by
    rw [hnew_timeOut, Nat.add_comm]
    exact fired_timeOut_ne hc (hper pArg)
  have hnew_lt : (store' pArg).timeOut < 0x8000 := by
    rw [hnew_timeOut]; exact and_7FFF_lt _
  have hsort' : SortedKeys c store' s.timeOutList :=
    SortedKeys_congr (fun x hx => by rw [hold x hx]) hsort
  have hmem_res : ∀ x ∈ (startTimer s pArg).timeOutList,
      x = pArg ∨ x ∈ s.timeOutList := by
    intro x hx
    simp only [startTimer, InsertTimer, ListInsertAt, ListAdd] at hx
    split at hx
    · split at hx
      · have hle := SearchFrom_le_length c store' pArg s.timeOutList
        rw [Search_eq_SearchFrom] at hx
        have := ((insertIdx_perm pArg _ _ hle).mem_iff).mp hx
        simpa using this
      · exact Or.inr hx
    · split at hx
      · exact Or.symm (by simpa using hx)
      · exact Or.inr hx
  constructor
  · exact hc
  constructor
  · -- Nodup
    simp only [startTimer, InsertTimer, ListInsertAt, ListAdd]
    split
    · split
      · rw [Search_eq_SearchFrom]
        have hle := SearchFrom_le_length c store' pArg s.timeOutList
        refine ((insertIdx_perm pArg _ _ hle).nodup_iff).mpr ?_
        exact List.nodup_cons.mpr ⟨hnotmem, hnd⟩
      · exact hnd
    · rename_i hpos
      have hnil : s.timeOutList = [] := by
        simp only [gt_iff_lt, not_lt, Nat.le_zero, List.length_eq_zero] at hpos
        exact hpos
      split
      · simp [hnil]
      · exact hnd
  constructor
  · -- bounds
    intro x hx
    rcases hmem_res x hx with rfl | hx'
    · exact hnew_lt
    · show (store' x).timeOut < 0x8000
      rw [hold x hx']
      exact hbound x hx'
  constructor
  · -- no due record
    intro x hx
    rcases hmem_res x hx with rfl | hx'
    · exact hnew_ne
    · show (store' x).timeOut ≠ c
      rw [hold x hx']
      exact hnodue x hx'
  constructor
  · -- sortedness
    show SortedKeys c store' (startTimer s pArg).timeOutList
    simp only [startTimer, InsertTimer, ListInsertAt, ListAdd]
    split
    · split
      · rw [Search_eq_SearchFrom]
        exact insertIdx_SearchFrom_sorted hsort'
      · exact hsort'
    · split
      · rename_i hpos _
        have : s.timeOutList = [] := by
          simp only [not_lt, Nat.le_zero, List.length_eq_zero] at hpos
          exact hpos
        simp [this, SortedKeys]
      · exact hsort'
  · exact hper'

lemma Inv_cancelTimer {s : TimerState} (pTE : Nat) (hInv : Inv s) :
    Inv (cancelTimer s pTE) := by
  obtain ⟨hc, hnd, hbound, hnodue, hsort, hper⟩ := hInv
  have hsub : (cancelTimer s pTE).timeOutList.Sublist s.timeOutList :=
    List.eraseIdx_sublist _ _
  refine ⟨hc, hnd.sublist hsub, ?_, ?_, hsort.sublist hsub, hper⟩
  · exact fun x hx => hbound x (hsub.mem hx)
  · exact fun x hx => hnodue x (hsub.mem hx)

lemma SortedKeys_tick_transfer {c : Nat} {store : Nat → timeElement}
    {l : List Nat} (hc : c < 0x8000)
    (hbound : ∀ x ∈ l, (store x).timeOut < 0x8000)
    (hnodue : ∀ x ∈ l, (store x).timeOut ≠ c)
    (hsort : SortedKeys c store l) :
    SortedKeys ((c + 1) % 0x8000) store l := by
  refine List.Pairwise.imp_of_mem ?_ hsort
  intro a b ha hb hab
  exact (normalizeTimeOut_le_transfer hc (hbound a ha) (hbound b hb)
    (hnodue a ha) (hnodue b hb)).mpr hab

/-- `NextTick` preserves the scheduler invariant, and the events it emits
are exactly the records due at the post-increment clock, in pending-list
order. -/
lemma Inv_NextTick {s : TimerState} (hInv : Inv s) :
    Inv (NextTick s).1 ∧
      (NextTick s).2.map FireEvent.id =
        dueList ((s.presentTime + 1) &&& 0x7FFF) s.store s.timeOutList := by
  obtain ⟨hc, hnd, hbound, hnodue, hsort, hper⟩ := hInv
  have hnow : (s.presentTime + 1) &&& 0x7FFF < 0x8000 := and_7FFF_lt _
  have hnoweq : (s.presentTime + 1) &&& 0x7FFF = (s.presentTime + 1) % 0x8000 :=
    and_7FFF _
  by_cases hnil : s.timeOutList.length = 0
  · have hl : s.timeOutList = [] := List.length_eq_zero.mp hnil
    have : NextTick s = ({ s with presentTime := (s.presentTime + 1) &&& 0x7FFF }, []) := by
      simp only [NextTick]
      rw [if_pos hnil]
    rw [this]
    refine ⟨⟨hnow, ?_, ?_, ?_, ?_, hper⟩, by simp [hl, dueList]⟩
    · simp [hl]
    · simp [hl]
    · simp [hl]
    · simp [hl, SortedKeys]
  · have hsort' : SortedKeys ((s.presentTime + 1) &&& 0x7FFF) s.store
        s.timeOutList := by
      rw [hnoweq]
      exact SortedKeys_tick_transfer hc hbound hnodue hsort
    obtain ⟨c1, c2, c3, c4, c5⟩ := NextTickLoop_spec hnow s.timeOutList.length
      s.store s.timeOutList [] hper hbound hnd hsort'
      (dueList_length_le _ _ _)
    have hstep : NextTick s =
        (⟨(s.presentTime + 1) &&& 0x7FFF,
          (NextTickLoop ((s.presentTime + 1) &&& 0x7FFF) s.timeOutList.length
            s.store s.timeOutList []).2.1,
          (NextTickLoop ((s.presentTime + 1) &&& 0x7FFF) s.timeOutList.length
            s.store s.timeOutList []).1⟩,
         (NextTickLoop ((s.presentTime + 1) &&& 0x7FFF) s.timeOutList.length
            s.store s.timeOutList []).2.2) := by
      simp only [NextTick]
      rw [if_neg hnil]
    rw [hstep]
    refine ⟨⟨hnow, ?_, c3, c2, c1, ?_⟩, by simpa using c5⟩
    · exact ((NextTickLoop_perm _ _ _ _ _).nodup_iff).mpr hnd
    · intro p
      rw [c4 p]
      exact hper p

/-- `NextTick` never adds or removes a pending record, whatever the state. -/
lemma NextTick_perm (s : TimerState) :
    ((NextTick s).1.timeOutList).Perm s.timeOutList := by
  by_cases hnil : s.timeOutList.length = 0
  · simp only [NextTick]
    rw [if_pos hnil]
  · simp only [NextTick]
    rw [if_neg hnil]
    exact NextTickLoop_perm _ _ _ _ _

lemma Inv_applyOp {s : TimerState} {o : Op} (hInv : Inv s)
    (hleg : ∀ p, o = Op.register p → p ∉ s.timeOutList) :
    Inv (applyOp s o) := by
  cases o with
  | register p => exact Inv_startTimer hInv (hleg p rfl)
  | cancel p => exact Inv_cancelTimer p hInv
  | tick => exact (Inv_NextTick hInv).1

/-- A sequence of operations is legal when no `register` targets a record
that is still in the pending list (double-start).  The C++ scheduler has no
defence against double-start: it mutates the shared record and inserts a
second pointer to it, which corrupts the sort order (see the counterexample
for the sort invariant). -/
def Legal : TimerState → List Op → Prop
  | _, [] => True
  | s, Op.register p :: rest =>
      p ∉ s.timeOutList ∧ Legal (applyOp s (Op.register p)) rest
  | s, o :: rest => Legal (applyOp s o) rest

lemma Inv_applyOps : ∀ (ops : List Op) (s : TimerState), Inv s →
    Legal s ops → Inv (applyOps s ops) := by
  intro ops
  induction ops with
  | nil => intro s h _; exact h
  | cons o rest ih =>
    intro s h hleg
    cases o with
    | register p =>
      exact ih _ (Inv_startTimer h hleg.1) hleg.2
    | cancel p =>
      exact ih _ (Inv_cancelTimer p h) hleg
    | tick =>
      exact ih _ (Inv_NextTick h).1 hleg

/-! ## Remaining helper lemmas for the claims -/

lemma getD_eq_get {α : Type} (l : List α) (d : α) {j : Nat}
    (hj : j < l.length) : l.getD j d = l.get ⟨j, hj⟩ := by
  rw [List.getD_eq_getElem?_getD, List.getElem?_eq_getElem hj]
  rfl

lemma clockAlarm_fst (e : timeElement) : (clockAlarm e).1 = callFunction e := by
  simp only [clockAlarm]
  split <;> rfl

/-- After removing the found occurrence, a duplicate-free list no longer
contains the value. -/
lemma not_mem_erase_findIdx {pTE : Nat} :
    ∀ {l : List Nat}, l.Nodup →
      pTE ∉ l.eraseIdx (l.findIdx (fun x => x = pTE)) := by
  intro l
  induction l with
  | nil => intro _; simp
  | cons h t ih =>
    intro hnd
    by_cases hh : h = pTE
    · have : (h :: t).findIdx (fun x => x = pTE) = 0 := by
        simp [List.findIdx_cons, hh]
      rw [this, List.eraseIdx_zero]
      simpa [hh] using (List.nodup_cons.mp hnd).1
    · have : (h :: t).findIdx (fun x => x = pTE) =
          t.findIdx (fun x => x = pTE) + 1 := by
        simp [List.findIdx_cons, hh]
      rw [this]
      intro hmem
      rcases List.mem_cons.mp hmem with he | hmem'
      · exact hh he.symm
      · exact ih (List.nodup_cons.mp hnd).2 hmem'

/-- A superfluous `A`-record never fires while its wake time differs from
the clock: the loop only ever fires a due head, and firing `h ≠ A` does not
touch `A`'s record. -/
lemma NextTickLoop_no_fire {now A : Nat} :
    ∀ (fuel : Nat) (store : Nat → timeElement) (l : List Nat)
      (evs : List FireEvent),
      (store A).timeOut ≠ now →
      (NextTickLoop now fuel store l evs).2.2.filter (fun e => e.id == A) =
        evs.filter (fun e => e.id == A) := by
  intro fuel
  induction fuel with
  | zero => intro store l evs _; simp [NextTickLoop]
  | succ f ih =>
    intro store l evs hA
    match l with
    | [] => simp [NextTickLoop]
    | h :: t =>
      by_cases hdue : (store h).timeOut = now
      · have hhA : h ≠ A := fun he => hA (he ▸ hdue)
        have hstep : NextTickLoop now (f + 1) store (h :: t) evs =
            NextTickLoop now f
              (updStore (updStore store h (updateTimeOut (store h))) h
                (clockAlarm (updStore store h (updateTimeOut (store h)) h)).2.1)
              (sortPass now
                (updStore (updStore store h (updateTimeOut (store h))) h
                  (clockAlarm (updStore store h (updateTimeOut (store h)) h)).2.1)
                (h :: t))
              (evs ++ [⟨h,
                (clockAlarm (updStore store h (updateTimeOut (store h)) h)).1.callBack,
                (clockAlarm (updStore store h (updateTimeOut (store h)) h)).1.arg,
                (updStore store h (updateTimeOut (store h)) h).timeOut⟩]) := by
          simp only [NextTickLoop]
          rw [if_pos hdue]
        rw [hstep, ih]
        · simp [hhA]
        · rw [updStore_other _ _ _ (Ne.symm hhA), updStore_other _ _ _ (Ne.symm hhA)]
          exact hA
      · have hstep : NextTickLoop now (f + 1) store (h :: t) evs =
            (store, h :: t, evs) := by
          simp only [NextTickLoop]
          rw [if_neg hdue]
        rw [hstep]

/-! ## Claims -/

/-- **C2.**  The wrap-safe comparison orders wake times by time-until-wake:
`normalizeTimeOut` (relative to `now`) compares two wake times exactly as
their distances-to-wake `(t - now) mod 0x8000` compare, and a wake time in
the past relative to `now` compares larger than one still in the future. -/
theorem normalize_orders_by_time_until_wake (now t1 t2 : Nat)
    (hn : now ≤ 0x7FFF) (h1 : t1 ≤ 0x7FFF) (h2 : t2 ≤ 0x7FFF) :
    (normalizeTimeOut now t1 < normalizeTimeOut now t2 ↔
      (t1 + 0x8000 - now) % 0x8000 < (t2 + 0x8000 - now) % 0x8000) ∧
    (t1 < now → now ≤ t2 → normalizeTimeOut now t2 < normalizeTimeOut now t1) := by
  rw [normalizeTimeOut_eq now (by omega), normalizeTimeOut_eq now (by omega)]
  constructor
  · split_ifs <;> omega
  · intro ha hb
    split_ifs <;> omega

theorem normalize_orders_by_time_until_wake_witness :
    ((10 : Nat) ≤ 0x7FFF ∧ (5 : Nat) ≤ 0x7FFF ∧ (12 : Nat) ≤ 0x7FFF) ∧
    normalizeTimeOut 10 12 < normalizeTimeOut 10 5 :=
  ⟨⟨by decide, by decide, by decide⟩,
    (normalize_orders_by_time_until_wake 10 5 12 (by decide) (by decide)
      (by decide)).2 (by decide) (by decide)⟩

/-- **C4.**  `clockAlarm` invokes the callback with the stored argument,
decrements `_repeats` exactly when it is nonzero, and returns `false`
exactly when that decrement brought it to 0 (so exactly when `_repeats`
was 1 on entry); the infinite sentinel 0 is left unchanged with result
`true`. -/
theorem clockAlarm_spec (e : timeElement) :
    (clockAlarm e).1 = ⟨e.callBack, e.arg⟩ ∧
    ((clockAlarm e).2.2 = false ↔ e.repeats = 1) ∧
    (e.repeats ≠ 0 → (clockAlarm e).2.1.repeats = e.repeats - 1) ∧
    (e.repeats = 0 → (clockAlarm e).2.1.repeats = 0 ∧ (clockAlarm e).2.2 = true) := by
  refine ⟨clockAlarm_fst e, ?_, ?_, ?_⟩ <;>
    match hr : e.repeats with
    | 0 => simp [clockAlarm, callFunction, hr]
    | 1 => simp [clockAlarm, callFunction, hr]
    | n + 2 => simp [clockAlarm, callFunction, hr]

theorem clockAlarm_spec_witness :
    (clockAlarm ⟨5, 3, 1, 7, 8⟩).2.2 = false ∧
    (clockAlarm ⟨5, 3, 2, 7, 8⟩).2.1.repeats = 1 ∧
    (clockAlarm ⟨5, 3, 0, 7, 8⟩).2.1.repeats = 0 :=
  ⟨(clockAlarm_spec ⟨5, 3, 1, 7, 8⟩).2.1.mpr rfl,
   by
    have h := (clockAlarm_spec ⟨5, 3, 2, 7, 8⟩).2.2.1 (by decide)
    simpa using h,
   ((clockAlarm_spec ⟨5, 3, 0, 7, 8⟩).2.2.2 rfl).1⟩

/-- **C5.**  `NextTick` never removes a record: for every state the pending
list after the call is a permutation of the one before it (same length,
same members), whatever the "should continue" results of the fired
records. -/
theorem nextTick_preserves_pending (s : TimerState) :
    ((NextTick s).1.timeOutList).Perm s.timeOutList ∧
    (NextTick s).1.timeOutList.length = s.timeOutList.length ∧
    (∀ x, x ∈ s.timeOutList ↔ x ∈ (NextTick s).1.timeOutList) :=
  ⟨NextTick_perm s, (NextTick_perm s).length_eq,
    fun _ => ((NextTick_perm s).mem_iff).symm⟩

/-- Shared helper: on a full registry, `startTimer` leaves the pending list
untouched (`InsertAt`'s capacity check fails). -/
lemma startTimer_full_list_unchanged (s : TimerState) (pArg : Nat)
    (hfull : s.timeOutList.length = MAX_LIST_PTRS) :
    (startTimer s pArg).timeOutList = s.timeOutList := by
  simp only [startTimer, InsertTimer, ListInsertAt, ListAdd]
  rw [if_pos (by simp [hfull, MAX_LIST_PTRS]),
    if_neg (by simp [hfull])]

/-- **C8.**  Registration against a full registry is silently rejected:
the stored sequence of references (hence the count and fullness) does not
change, and `startTimer` returns nothing that could signal the failure. -/
theorem capacity_rejection (s : TimerState) (pArg : Nat)
    (hfull : s.timeOutList.length = MAX_LIST_PTRS) :
    (startTimer s pArg).timeOutList = s.timeOutList ∧
    (startTimer s pArg).timeOutList.length = MAX_LIST_PTRS := by
  have h1 := startTimer_full_list_unchanged s pArg hfull
  exact ⟨h1, by rw [h1, hfull]⟩

/-- A store of well-behaved records used by several witnesses. -/
def constStore : Nat → timeElement := fun _ => ⟨0, 1, 0, 0, 0⟩

theorem capacity_rejection_witness :
    ((⟨7, [1, 2, 3, 4, 5], constStore⟩ : TimerState).timeOutList.length =
      MAX_LIST_PTRS) ∧
    (startTimer ⟨7, [1, 2, 3, 4, 5], constStore⟩ 9).timeOutList =
      [1, 2, 3, 4, 5] :=
  ⟨by decide,
    (capacity_rejection ⟨7, [1, 2, 3, 4, 5], constStore⟩ 9 (by decide)).1⟩

/-- **C9.**  Cancelling a record that is not in the pending list leaves the
whole scheduler state unchanged (the not-found scan index equals the count
and `Remove` at the count is a no-op); hence cancelling the same handle
twice is safe: after the first cancel of a duplicate-free list the handle
is gone, and the second cancel changes nothing. -/
theorem cancel_unregistered_noop (s : TimerState) (pTE : Nat) :
    (pTE ∉ s.timeOutList → cancelTimer s pTE = s) ∧
    (s.timeOutList.Nodup →
      cancelTimer (cancelTimer s pTE) pTE = cancelTimer s pTE) := by
  have hmain : ∀ (s' : TimerState), pTE ∉ s'.timeOutList →
      cancelTimer s' pTE = s' := by
    intro s' hmem
    have hidx : s'.timeOutList.findIdx (fun x => x = pTE) =
        s'.timeOutList.length := by
      refine List.findIdx_eq_length.mpr ?_
      intro x hx
      simp only [decide_eq_false_iff_not]
      exact fun he => hmem (he ▸ hx)
    obtain ⟨c, l, st⟩ := s'
    simp only [cancelTimer, ListRemove] at hidx ⊢
    rw [hidx, List.eraseIdx_of_length_le (Nat.le_refl _)]
  constructor
  · exact hmain s
  · intro hnd
    refine hmain (cancelTimer s pTE) ?_
    simpa [cancelTimer, ListRemove] using not_mem_erase_findIdx hnd

theorem cancel_unregistered_noop_witness :
    cancelTimer ⟨3, [4, 5], constStore⟩ 9 = ⟨3, [4, 5], constStore⟩ ∧
    cancelTimer (cancelTimer ⟨3, [4, 5], constStore⟩ 4) 4 =
      cancelTimer ⟨3, [4, 5], constStore⟩ 4 :=
  ⟨(cancel_unregistered_noop ⟨3, [4, 5], constStore⟩ 9).1 (by decide),
   (cancel_unregistered_noop ⟨3, [4, 5], constStore⟩ 4).2 (by decide)⟩

/-- **C10.**  Even when the registry is full, `startTimer` has already
overwritten the caller-owned record's wake time with
`(clock + period) mod 0x8000` (Timer.cpp line 122 runs before the capacity
check inside `InsertAt`): the silent rejection leaves the pending list
unchanged but is not mutation-free for the record. -/
theorem startTimer_full_mutates_record (s : TimerState) (pArg : Nat)
    (hfull : s.timeOutList.length = MAX_LIST_PTRS) :
    (startTimer s pArg).timeOutList = s.timeOutList ∧
    ((startTimer s pArg).store pArg).timeOut =
      (s.presentTime + (s.store pArg).timePeriod) % 0x8000 := by
  refine ⟨startTimer_full_list_unchanged s pArg hfull, ?_⟩
  simp only [startTimer, updStore_same, setTimeOut]
  exact and_7FFF _

theorem startTimer_full_mutates_record_witness :
    ((startTimer ⟨7, [1, 2, 3, 4, 5], constStore⟩ 9).store 9).timeOut = 8 := by
  have h := (startTimer_full_mutates_record ⟨7, [1, 2, 3, 4, 5], constStore⟩ 9
    (by decide)).2
  simpa [constStore] using h

/-- Store for the `Search` claim: records 0 and 1 share wake time 5,
record 2 wakes later at 9. -/
def cex6Store : Nat → timeElement := fun i =>
  if i = 0 then ⟨5, 3, 0, 0, 0⟩
  else if i = 1 then ⟨5, 5, 0, 0, 0⟩
  else ⟨9, 2, 0, 0, 0⟩

/-- The claim's wording of the scan: "the first index `i` whose `wakeAt[i]`
is not earlier than the new record's `wakeAt`", i.e. the least index whose
normalized wake time is greater **or equal**. -/
def SearchSpecNotEarlier (c : Nat) (store : Nat → timeElement) (pArg : Nat)
    (l : List Nat) : Nat :=
  l.findIdx (fun x =>
    normalizeTimeOut c ((store pArg).timeOut) ≤
      normalizeTimeOut c ((store x).timeOut))

/-- **C6, counterexample.**  On a tie the code's scan walks past the equal
entry: with one pending record of wake time 5 and a new record of equal
wake time 5, index 0 already satisfies the claimed "not earlier" condition
(its normalized time is ≥ the new one's), yet `Search` returns 1, not the
least such index 0. -/
theorem search_counterexample :
    Search 0 cex6Store 1 [0] = 1 ∧
    SearchSpecNotEarlier 0 cex6Store 1 [0] = 0 ∧
    normalizeTimeOut 0 ((cex6Store 1).timeOut) ≤
      normalizeTimeOut 0 ((cex6Store 0).timeOut) := by
  decide

/-- **C6 (amended).**  `Search` returns the first (least) index whose wake
time is **strictly later** than the new record's under the wrap-safe
comparison relative to the current clock, returning the count when no such
index exists: the result never exceeds the count, every index before it
compares less-or-equal to the new record, and the index itself (when inside
the list) compares strictly greater. -/
theorem search_first_strictly_later (c : Nat) (store : Nat → timeElement)
    (pArg : Nat) (l : List Nat) :
    Search c store pArg l ≤ l.length ∧
    (∀ j, j < Search c store pArg l →
      normalizeTimeOut c ((store (l.getD j 0)).timeOut) ≤
        normalizeTimeOut c ((store pArg).timeOut)) ∧
    (Search c store pArg l < l.length →
      normalizeTimeOut c ((store pArg).timeOut) <
        normalizeTimeOut c ((store (l.getD (Search c store pArg l) 0)).timeOut)) := by
  rw [Search_eq_SearchFrom]
  refine ⟨SearchFrom_le_length c store pArg l, ?_, ?_⟩
  · intro j hj
    have hjl : j < l.length :=
      Nat.lt_of_lt_of_le hj (SearchFrom_le_length c store pArg l)
    rw [getD_eq_get l 0 hjl]
    exact SearchFrom_prefix_le hjl hj
  · intro hlt
    rw [getD_eq_get l 0 hlt]
    exact SearchFrom_hit hlt

theorem search_first_strictly_later_witness :
    Search 0 cex6Store 1 [0, 2] ≤ 2 ∧
    normalizeTimeOut 0 ((cex6Store ([0, 2].getD 0 0)).timeOut) ≤
      normalizeTimeOut 0 ((cex6Store 1).timeOut) ∧
    normalizeTimeOut 0 ((cex6Store 1).timeOut) <
      normalizeTimeOut 0
        ((cex6Store ([0, 2].getD (Search 0 cex6Store 1 [0, 2]) 0)).timeOut) := by
  have h := search_first_strictly_later 0 cex6Store 1 [0, 2]
  exact ⟨h.1, h.2.1 0 (by decide), h.2.2 (by decide)⟩

/-- Store for the firing-determinism counterexample: record 0 is due with
period 0 (the sanity condition the spec "expects" but the code never
checks), record 1 is due with period 1. -/
def cex3Store : Nat → timeElement := fun i =>
  if i = 0 then ⟨100, 0, 0, 10, 20⟩ else ⟨100, 1, 0, 11, 21⟩

/-- **C3, counterexample.**  Clock 99, head record with wake time 100 and
period 0: the tick that advances the clock to 100 fires the head record
twice in the fuel-bounded model — the C++ loop (whose head stays due
forever, `updateTimeOut` adding 0) in fact never terminates — and not
exactly once as the claim states for an arbitrary record. -/
theorem firing_determinism_counterexample :
    (99 + 1) &&& 0x7FFF = 100 ∧
    (cex3Store 0).timeOut = 100 ∧
    ((NextTick ⟨99, [0, 1], cex3Store⟩).2.filter
      (fun e => e.id == 0)).length = 2 := by
  decide

/-- **C3 (amended).**  If the clock after the tick-advance increment is 100
and the head record has wake time 100 and period nonzero mod 0x8000, then
that single `NextTick` invokes the head record's callback exactly once, and
at the moment of the invocation the record's wake time has already been
advanced (by `updateTimeOut`, which runs first) to
`(100 + period) mod 0x8000`. -/
theorem firing_determinism (s : TimerState) (A : Nat) (t : List Nat)
    (hl : s.timeOutList = A :: t)
    (hwake : (s.store A).timeOut = 100)
    (hclock : (s.presentTime + 1) &&& 0x7FFF = 100)
    (hper : (s.store A).timePeriod % 0x8000 ≠ 0) :
    (NextTick s).2.filter (fun e => e.id == A) =
      [⟨A, (s.store A).callBack, (s.store A).arg,
        (100 + (s.store A).timePeriod) % 0x8000⟩] := by
  have hev : (NextTick s).2 =
      (NextTickLoop 100 (t.length + 1) s.store (A :: t) []).2.2 := by
    simp only [NextTick]
    rw [if_neg (by rw [hl]; simp)]
    rw [hl, hclock, List.length_cons]
  set store1 := updStore s.store A (updateTimeOut (s.store A)) with hstore1
  set store2 := updStore store1 A (clockAlarm (store1 A)).2.1 with hstore2
  have hfire1 : NextTickLoop 100 (t.length + 1) s.store (A :: t) [] =
      NextTickLoop 100 t.length store2 (sortPass 100 store2 (A :: t))
        ([] ++ [⟨A, (clockAlarm (store1 A)).1.callBack,
          (clockAlarm (store1 A)).1.arg, (store1 A).timeOut⟩]) := by
    simp only [NextTickLoop]
    rw [if_pos hwake]
  have hs1A : store1 A = updateTimeOut (s.store A) := by
    rw [hstore1, updStore_same]
  have hs1A_timeOut : (store1 A).timeOut =
      ((s.store A).timePeriod + 100) &&& 0x7FFF := by
    rw [hs1A, updateTimeOut, hwake]
  have hs2A_ne : (store2 A).timeOut ≠ 100 := by
    rw [hstore2, updStore_same, clockAlarm_timeOut, hs1A_timeOut]
    exact fired_timeOut_ne (by norm_num) hper
  rw [hev, hfire1, NextTickLoop_no_fire t.length store2 _ _ hs2A_ne]
  have hcb : (clockAlarm (store1 A)).1 = callFunction (store1 A) :=
    clockAlarm_fst _
  have hcf : callFunction (store1 A) = ⟨(s.store A).callBack, (s.store A).arg⟩ := by
    rw [hs1A, updateTimeOut, callFunction]
  rw [List.nil_append]
  have : ((s.store A).timePeriod + 100) &&& 0x7FFF =
      (100 + (s.store A).timePeriod) % 0x8000 := by
    rw [and_7FFF, Nat.add_comm]
  simp [hcb, hcf, hs1A_timeOut, this]

/-- Store for the firing-determinism witness: record 0 due at 100 with
period 7, record 1 wakes later. -/
def cex3PosStore : Nat → timeElement := fun i =>
  if i = 0 then ⟨100, 7, 2, 10, 20⟩ else ⟨103, 5, 0, 11, 21⟩

theorem firing_determinism_witness :
    (NextTick ⟨99, [0, 1], cex3PosStore⟩).2.filter (fun e => e.id == 0) =
      [⟨0, (cex3PosStore 0).callBack, (cex3PosStore 0).arg,
        (100 + (cex3PosStore 0).timePeriod) % 0x8000⟩] :=
  firing_determinism ⟨99, [0, 1], cex3PosStore⟩ 0 [1] rfl (by decide)
    (by decide) (by decide)

/-- The scan walks past a front segment none of whose keys exceed the new
record's key. -/
lemma SearchFrom_append {c : Nat} {store : Nat → timeElement} {pArg : Nat} :
    ∀ {l1 : List Nat} (l2 : List Nat),
      (∀ x ∈ l1, ¬ (normalizeTimeOut c (store pArg).timeOut <
        normalizeTimeOut c (store x).timeOut)) →
      SearchFrom c store pArg (l1 ++ l2) =
        l1.length + SearchFrom c store pArg l2 := by
  intro l1
  induction l1 with
  | nil => intro l2 _; simp
  | cons h t ih =>
    intro l2 hfr
    simp only [List.cons_append, SearchFrom, List.append_eq, List.length_cons]
    rw [if_neg (hfr h (by simp)), ih l2 (fun x hx => hfr x (by simp [hx]))]
    omega

/-- **C7, counterexample.**  Records 0 and 1 share wake time 100 (record 0
registered first, so it occupies the earlier slot); record 0 has period 0.
On the tick where both are due the model fires record 0 twice (the C++
loop never terminates) and record 1's callback is never invoked at all —
so the two callbacks are *not* invoked in registration order on that
tick. -/
theorem tie_ordering_counterexample :
    (cex3Store 0).timeOut = 100 ∧ (cex3Store 1).timeOut = 100 ∧
    (99 + 1) &&& 0x7FFF = 100 ∧
    (NextTick ⟨99, [0, 1], cex3Store⟩).2.map FireEvent.id = [0, 0] := by
  decide

/-- Store for the tie-ordering witness: records 0 and 1 both wake at 100,
with sane periods. -/
def cex7Store : Nat → timeElement := fun i =>
  if i = 0 then ⟨100, 7, 0, 10, 20⟩
  else if i = 1 then ⟨100, 5, 0, 11, 21⟩
  else ⟨0, 1, 0, 0, 0⟩

/-- **C7 (amended).**  Provided the scheduler invariant holds (in
particular, all periods nonzero mod 0x8000, no duplicates, sorted list):
(1) a newly registered record whose computed wake time equals that of an
already pending record is inserted strictly after it (the scan walks past
every entry comparing less-or-equal, ties included); (2) if record `A`
occupies an earlier slot than record `B` and both are due on the next
tick, then on that tick `A`'s callback is invoked before `B`'s. -/
theorem tie_ordering :
    (∀ (c : Nat) (store : Nat → timeElement) (pArg E : Nat) (p q : List Nat),
      SortedKeys c store (p ++ E :: q) →
      (store E).timeOut = (store pArg).timeOut →
      p.length < Search c store pArg (p ++ E :: q)) ∧
    (∀ (s : TimerState) (A B : Nat) (p m q : List Nat),
      Inv s →
      s.timeOutList = p ++ A :: m ++ B :: q →
      (s.store A).timeOut = (s.presentTime + 1) &&& 0x7FFF →
      (s.store B).timeOut = (s.presentTime + 1) &&& 0x7FFF →
      ∃ e1 e2 e3, (NextTick s).2.map FireEvent.id =
        e1 ++ A :: e2 ++ B :: e3) := by
  constructor
  · intro c store pArg E p q hsort heq
    rw [Search_eq_SearchFrom]
    have hkey : normalizeTimeOut c (store E).timeOut =
        normalizeTimeOut c (store pArg).timeOut := by rw [heq]
    have hfront : ∀ x ∈ p, ¬ (normalizeTimeOut c (store pArg).timeOut <
        normalizeTimeOut c (store x).timeOut) := by
      intro x hx
      have hrel := (List.pairwise_append.mp hsort).2.2 x hx E (by simp)
      unfold keyOf at hrel
      omega
    rw [SearchFrom_append (E :: q) hfront]
    have hE : SearchFrom c store pArg (E :: q) =
        SearchFrom c store pArg q + 1 := by
      simp only [SearchFrom]
      rw [if_neg (by omega)]
    omega
  · intro s A B p m q hInv hl hA hB
    have hev := (Inv_NextTick hInv).2
    refine ⟨dueList ((s.presentTime + 1) &&& 0x7FFF) s.store p,
      dueList ((s.presentTime + 1) &&& 0x7FFF) s.store m,
      dueList ((s.presentTime + 1) &&& 0x7FFF) s.store q, ?_⟩
    rw [hev, hl, dueList_append, dueList_append]
    simp only [dueList]
    rw [if_pos hA, if_pos hB]

theorem tie_ordering_witness :
    (0 : Nat) < Search 0 cex6Store 1 [0] ∧
    (∃ e1 e2 e3, (NextTick ⟨99, [0, 1], cex7Store⟩).2.map FireEvent.id =
      e1 ++ 0 :: e2 ++ 1 :: e3) := by
  constructor
  · have h := tie_ordering.1 0 cex6Store 1 0 [] [] (by decide) (by decide)
    simpa using h
  · refine tie_ordering.2 ⟨99, [0, 1], cex7Store⟩ 0 1 [] [] []
      ⟨by norm_num, by decide, by decide, by decide, by decide, ?_⟩
      rfl (by decide) (by decide)
    intro pt
    simp only [cex7Store]
    split_ifs <;> decide

/-- Store for the sort-invariant counterexample: record 0 has period 3,
record 1 has period 4 — both positive and far below the half-range bound
the spec documents. -/
def cex1Store : Nat → timeElement := fun i =>
  if i = 0 then ⟨0, 3, 0, 10, 20⟩
  else if i = 1 then ⟨0, 4, 0, 11, 21⟩
  else ⟨0, 1, 0, 0, 0⟩

/-- **C1, counterexample.**  Starting from the empty scheduler with clock 0:
register record 0 (period 3, wake time 3), register record 1 (period 4,
wake time 4), tick twice (clock 2, nothing fires), then register record 0
*again* (double-start, which the code accepts silently).  `startTimer`
overwrites the shared record's wake time to 5, so the existing slot 0 (now
key 5) precedes slot 1 (key 4) and the adjacent-pair comparison reports the
earlier slot strictly greater: the invariant fails after this legal-looking
sequence of register/cancel/tick operations. -/
theorem sort_invariant_counterexample :
    ¬ SortInvariant (applyOps ⟨0, [], cex1Store⟩
      [Op.register 0, Op.register 1, Op.tick, Op.tick, Op.register 0]) := by
  decide

/-- **C1 (amended).**  Starting from the empty scheduler (clock in range),
after any sequence of register/cancel/tick operations in which every
record's period is nonzero mod 0x8000 and no record is registered while it
is already pending, the wrap-safe comparison relative to the current clock
never reports an earlier slot as strictly greater than its successor. -/
theorem sort_invariant_of_legal_ops (ops : List Op) (c0 : Nat)
    (store : Nat → timeElement) (hc : c0 < 0x8000)
    (hper : ∀ p, (store p).timePeriod % 0x8000 ≠ 0)
    (hleg : Legal ⟨c0, [], store⟩ ops) :
    SortInvariant (applyOps ⟨c0, [], store⟩ ops) := by
  have hInv0 : Inv ⟨c0, [], store⟩ :=
    ⟨hc, List.nodup_nil, by simp, by simp, by simp [SortedKeys], hper⟩
  obtain ⟨-, -, -, -, hsort, -⟩ := Inv_applyOps ops _ hInv0 hleg
  unfold SortInvariant
  refine List.Chain'.imp ?_ hsort.chain'
  intro a b hab
  unfold keyOf at hab
  omega

theorem sort_invariant_of_legal_ops_witness :
    SortInvariant (applyOps ⟨0, [], cex1Store⟩ [Op.register 0, Op.tick]) := by
  refine sort_invariant_of_legal_ops [Op.register 0, Op.tick] 0 cex1Store
    (by norm_num) ?_ ⟨by decide, trivial⟩
  intro pt
  simp only [cex1Store]
  split_ifs <;> decide

end TimerSpec
